import Mathlib

/-!
Verification of the Stats Aggregator of the lol-dashboard repository.

The embedded code is `src/calculate_stats.py` (filtering, per-champion
aggregation, recent matches, patch list, mode list) together with the
queue-name lookup of `src/utils.py`.  Python values are modelled as
follows: Python ints are `Int` (counts stay `Int`, as in the source),
Python floats produced by true division and `round` are modelled as exact
rationals `ℚ` with round-half-to-even, Python strings are `String`
(compared and sliced through their character lists, i.e. code points, the
same ordering Python uses), and Python `None` / missing dict keys are
`Option`.  `datetime.now()` is modelled by an explicit parameter `now`,
the current local wall-clock instant in milliseconds since the Unix epoch
(local time is identified with UTC and DST is ignored; 1970-01-01 was a
Thursday, so `weekday()` of an epoch day `d` is `(d + 3) % 7`).
-/

attribute [local semireducible] Rat.mul Rat.add Rat.sub Rat.inv

namespace LolStats

open List

/-- Round-half-to-even on rationals, modelling Python's builtin `round(x)`
applied to an exactly-represented value. -/
def pyRound (q : ℚ) : ℤ :=
  if q - (⌊q⌋ : ℚ) < 1/2 then ⌊q⌋
  else if 1/2 < q - (⌊q⌋ : ℚ) then ⌊q⌋ + 1
  else if ⌊q⌋ % 2 = 0 then ⌊q⌋ else ⌊q⌋ + 1

/-- Python's `round(x, n)`: round to `n` decimal digits, half to even. -/
def pyRoundTo (n : ℕ) (q : ℚ) : ℚ := (pyRound (q * 10 ^ n) : ℚ) / 10 ^ n

/-- Python's `s.startswith(pre)`: the characters of `pre` lead the
characters of `s`. -/
def strStartsWith (s pre : String) : Bool := pre.data.isPrefixOf s.data

/-- Fuelled worker for `pyReplace`, replacing non-overlapping occurrences
of `pat` left to right.  The fuel (`length + 1` at the top call) is enough
for every non-empty pattern, the only shape the embedded source uses. -/
def pyReplaceFuel : ℕ → List Char → List Char → List Char → List Char
  | 0, s, _, _ => s
  | fuel + 1, s, pat, rep =>
    match s with
    | [] => []
    | c :: rest =>
      if pat.isPrefixOf (c :: rest) then
        rep ++ pyReplaceFuel fuel ((c :: rest).drop pat.length) pat rep
      else c :: pyReplaceFuel fuel rest pat rep

/-- Python's `s.replace(pat, rep)` for a non-empty `pat`. -/
def pyReplace (s pat rep : String) : String :=
  ⟨pyReplaceFuel (s.data.length + 1) s.data pat.data rep.data⟩

/-- Python's `s.split(".")` on the character list of `s`. -/
def splitDot : List Char → List (List Char)
  | [] => [[]]
  | c :: rest =>
    if c = '.' then [] :: splitDot rest
    else
      match splitDot rest with
      | [] => [[c]]
      | s :: ss => (c :: s) :: ss

/-- Python's string comparison, on character lists: lexicographic by code
point.  `strLtB a b = true` exactly when Python evaluates `a < b`. -/
def strLtB : List Char → List Char → Bool
  | _, [] => false
  | [], _ :: _ => true
  | a :: as, b :: bs => if a < b then true else if a = b then strLtB as bs else false

/-- Decimal value of a digit character. -/
def digitVal (c : Char) : ℕ := c.toNat - '0'.toNat

/-- Worker for `parseDigits`: consumes further digits, allowing a single
underscore between two digits (PEP 515), accumulating the value. -/
def parseDigitsAux (acc : ℕ) : List Char → Option ℕ
  | [] => some acc
  | c :: rest =>
    if c = '_' then
      match rest with
      | [] => none
      | d :: rest2 =>
        if d.isDigit then parseDigitsAux (acc * 10 + digitVal d) rest2 else none
    else if c.isDigit then parseDigitsAux (acc * 10 + digitVal c) rest
    else none

/-- Parse a non-empty run of decimal digits (single underscores allowed
between digits), the digit part accepted by Python's `int()`. -/
def parseDigits : List Char → Option ℕ
  | [] => none
  | c :: rest => if c.isDigit then parseDigitsAux (digitVal c) rest else none

/-- Python's `int(s)` on a string: optional surrounding whitespace, an
optional sign, then decimal digits; `none` models the `ValueError` branch.
(Unicode digits beyond ASCII are not modelled; the embedded source only
ever parses queue-id strings.) -/
def pyInt (s : String) : Option ℤ :=
  let t := (s.data.dropWhile Char.isWhitespace).reverse.dropWhile Char.isWhitespace |>.reverse
  match t with
  | '+' :: rest => (parseDigits rest).map (fun n => (n : ℤ))
  | '-' :: rest => (parseDigits rest).map (fun n => -(n : ℤ))
  | rest => (parseDigits rest).map (fun n => (n : ℤ))

/-- The tracked player's per-match data (the `myData` dict of a match
record), restricted to the fields `calculate_stats.py` reads. -/
structure MyData where
  championName : String
  win : Bool
  kills : ℤ
  deaths : ℤ
  assists : ℤ
  totalDamageDealtToChampions : ℤ
  totalDamageTaken : ℤ
  deriving DecidableEq, Repr

/-- A normalized match record, restricted to the fields
`calculate_stats.py` reads.  `queueId` is optional because
`get_available_modes` defends against its absence with `.get`. -/
structure Match where
  matchId : String
  gameCreation : ℤ
  queueId : Option ℤ
  gameDuration : ℤ
  gameVersion : String
  myData : MyData
  deriving DecidableEq, Repr

/-- The per-champion accumulator dict built in
`calculate_champion_stats` (source lines 38-60). -/
structure ChampionAgg where
  championName : String
  games : ℤ
  wins : ℤ
  totalKills : ℤ
  totalDeaths : ℤ
  totalAssists : ℤ
  totalDamageDealt : ℤ
  totalDamageTaken : ℤ
  deriving DecidableEq, Repr

/-- One element of the list returned by `calculate_champion_stats`
(source lines 82-94). -/
structure ChampionStat where
  championName : String
  games : ℤ
  wins : ℤ
  losses : ℤ
  winRate : ℚ
  totalKills : ℤ
  totalDeaths : ℤ
  totalAssists : ℤ
  avgKDA : ℚ
  avgDamageDealt : ℤ
  avgDamageTaken : ℤ
  deriving DecidableEq, Repr

/-- Milliseconds in a day. -/
def msPerDay : ℤ := 86400000

/-- Epoch milliseconds of the most recent Monday 00:00:00.000 before (or
at) the instant `now`, modelling source lines 128-131 and 138-140
(`now - timedelta(days=now.weekday())` truncated to midnight). -/
def mondayStartMs (now : ℤ) : ℤ :=
  let d := Int.fdiv now msPerDay
  (d - (d + 3) % 7) * msPerDay

/-- The period-filter block of `filter_matches` (source lines 117-165). -/
def periodFilter (ms : List Match) (period : String) (now : ℤ) : List Match :=
  if period = "all" then ms
  else if strStartsWith period "patch_" then
    ms.filter (fun m => strStartsWith m.gameVersion (pyReplace period "patch_" ""))
  else if period = "this_week" then
    ms.filter (fun m => decide (mondayStartMs now ≤ m.gameCreation))
  else if period = "last_week" then
    ms.filter (fun m =>
      decide (mondayStartMs now - 7 * msPerDay ≤ m.gameCreation) &&
      decide (m.gameCreation < mondayStartMs now))
  else if period = "last_30_days" then
    ms.filter (fun m => decide (now - 30 * msPerDay ≤ m.gameCreation))
  else if period = "last_7_days" then
    ms.filter (fun m => decide (now - 7 * msPerDay ≤ m.gameCreation))
  else ms

/-- The mode-filter block of `filter_matches` (source lines 167-177): a
parseable mode keeps only matching queue ids, an unparseable one is a
silent no-op (the `except ValueError: pass`). -/
def modeFilter (ms : List Match) (mode : String) : List Match :=
  if mode = "all" then ms
  else
    match pyInt mode with
    | some queueId => ms.filter (fun m => m.queueId == some queueId)
    | none => ms

/-- Embedding of `filter_matches` (source lines 103-179): the period
block followed by the mode block, both operating on copies of the input
list (`matches.copy()` and list comprehensions never mutate the input). -/
def filter_matches (ms : List Match) (period mode : String) (now : ℤ) : List Match :=
  modeFilter (periodFilter ms period now) mode

/-- Fresh accumulator for a champion (source lines 39-48). -/
def initAgg (name : String) : ChampionAgg :=
  { championName := name, games := 0, wins := 0, totalKills := 0, totalDeaths := 0,
    totalAssists := 0, totalDamageDealt := 0, totalDamageTaken := 0 }

/-- One accumulation step for a match (source lines 50-60). -/
def updateAgg (agg : ChampionAgg) (md : MyData) : ChampionAgg :=
  { agg with
    games := agg.games + 1
    wins := agg.wins + (if md.win then 1 else 0)
    totalKills := agg.totalKills + md.kills
    totalDeaths := agg.totalDeaths + md.deaths
    totalAssists := agg.totalAssists + md.assists
    totalDamageDealt := agg.totalDamageDealt + md.totalDamageDealtToChampions
    totalDamageTaken := agg.totalDamageTaken + md.totalDamageTaken }

/-- Upsert into the champion dict, modelled as an association list in
insertion order (Python dicts preserve insertion order): an existing key
is updated in place, a new key is appended at the end. -/
def insertMatch (aggs : List ChampionAgg) (md : MyData) : List ChampionAgg :=
  match aggs with
  | [] => [updateAgg (initAgg md.championName) md]
  | a :: rest =>
    if a.championName = md.championName then updateAgg a md :: rest
    else a :: insertMatch rest md

/-- One iteration of the grouping loop: fold the current match's
`myData` into the champion dict. -/
def aggStep (aggs : List ChampionAgg) (m : Match) : List ChampionAgg :=
  insertMatch aggs m.myData

/-- The grouping loop of `calculate_champion_stats` (source lines 32-60). -/
def buildAggs (ms : List Match) : List ChampionAgg :=
  ms.foldl aggStep []

/-- Python's `x or 1` on an int: `0` is falsy and is replaced. -/
def orOne (x : ℤ) : ℤ := if x = 0 then 1 else x

/-- The derivation of one stats dict from one accumulator (source lines
64-95): win rate (1 decimal), average KDA with a zero-deaths guard
(2 decimals), and rounded average damage values. -/
def finalize (agg : ChampionAgg) : ChampionStat :=
  let games := agg.games
  let wins := agg.wins
  let winRate : ℚ := if 0 < games then (wins : ℚ) / (games : ℚ) * 100 else 0
  let avgKda : ℚ := ((agg.totalKills : ℚ) + (agg.totalAssists : ℚ)) / (orOne agg.totalDeaths : ℚ)
  let avgDamageDealt : ℚ := if 0 < games then (agg.totalDamageDealt : ℚ) / (games : ℚ) else 0
  let avgDamageTaken : ℚ := if 0 < games then (agg.totalDamageTaken : ℚ) / (games : ℚ) else 0
  { championName := agg.championName
    games := games
    wins := wins
    losses := games - wins
    winRate := pyRoundTo 1 winRate
    totalKills := agg.totalKills
    totalDeaths := agg.totalDeaths
    totalAssists := agg.totalAssists
    avgKDA := pyRoundTo 2 avgKda
    avgDamageDealt := pyRound avgDamageDealt
    avgDamageTaken := pyRound avgDamageTaken }

/-- Sort relation of the final `champion_stats.sort(key=games,
reverse=True)`: `a` may precede `b` when its game count is at least as
large.  A stable sort under this total preorder is exactly what CPython's
stable descending sort produces. -/
def statLe (a b : ChampionStat) : Prop := b.games ≤ a.games

instance : DecidableRel statLe := fun a b => inferInstanceAs (Decidable (b.games ≤ a.games))

instance : IsTotal ChampionStat statLe := ⟨fun a b => Int.le_total b.games a.games⟩

instance : IsTrans ChampionStat statLe := ⟨fun _ _ _ h1 h2 => le_trans h2 h1⟩

/-- Embedding of `calculate_champion_stats` (source lines 13-100):
filter, early return on an empty result, group, derive, then a stable
descending sort by game count. -/
def calculate_champion_stats (ms : List Match) (period mode : String) (now : ℤ) :
    List ChampionStat :=
  if filter_matches ms period mode now = [] then []
  else ((buildAggs (filter_matches ms period mode now)).map finalize).insertionSort statLe

/-- Sort relation of `sorted(matches, key=gameCreation, reverse=True)`. -/
def recentLe (a b : Match) : Prop := b.gameCreation ≤ a.gameCreation

instance : DecidableRel recentLe := fun a b => inferInstanceAs (Decidable (b.gameCreation ≤ a.gameCreation))

instance : IsTotal Match recentLe := ⟨fun a b => Int.le_total b.gameCreation a.gameCreation⟩

instance : IsTrans Match recentLe := ⟨fun _ _ _ h1 h2 => le_trans h2 h1⟩

/-- Embedding of `get_recent_matches` (source lines 182-197): stable
descending sort by `gameCreation`, then the first `count` entries. -/
def get_recent_matches (ms : List Match) (count : ℕ) : List Match :=
  (ms.insertionSort recentLe).take count

/-- The patch of one record: the first two dot-separated segments of its
`gameVersion`, when there are at least two (source lines 216-222). -/
def patchOf (m : Match) : Option String :=
  match splitDot m.gameVersion.data with
  | p0 :: p1 :: _ => some ⟨p0 ++ '.' :: p1⟩
  | _ => none

/-- The set of patches in encounter order (source lines 214-222; the set
is only consumed through `sorted`, so insertion order is irrelevant). -/
def collectPatches (ms : List Match) : List String :=
  ms.foldl (fun acc m =>
    match patchOf m with
    | some p => if p ∈ acc then acc else acc ++ [p]
    | none => acc) []

/-- Sort relation of `sorted(patches, reverse=True)`: `a` may precede `b`
when `a` is not smaller, i.e. descending string order (lexicographic on
code points, Python's string comparison). -/
def stringGe (a b : String) : Prop := strLtB a.data b.data = false

instance : DecidableRel stringGe :=
  fun a b => inferInstanceAs (Decidable (strLtB a.data b.data = false))

/-- Embedding of `get_available_patches` (source lines 200-228): distinct
patches, sorted descending as strings, first five. -/
def get_available_patches (ms : List Match) : List String :=
  if ms = [] then []
  else ((collectPatches ms).insertionSort stringGe).take 5

/-- Embedding of `get_queue_name` (utils.py lines 107-117) together with
the `QUEUE_NAMES` table (utils.py lines 43-51); an unknown id maps to the
fallback label embedding the id. -/
def get_queue_name (queueId : ℤ) : String :=
  if queueId = 420 then "ランクソロ/デュオ"
  else if queueId = 440 then "ランクフレックス"
  else if queueId = 400 then "ノーマル（ドラフト）"
  else if queueId = 430 then "ノーマル（ブラインド）"
  else if queueId = 450 then "ARAM"
  else if queueId = 1700 then "Arena"
  else if queueId = 1900 then "URF"
  else "その他 (" ++ toString queueId ++ ")"

/-- One entry of the mode list: queue id as a string plus display name. -/
structure ModeEntry where
  id : String
  name : String
  deriving DecidableEq, Repr

/-- The set of present queue ids in encounter order, ignoring absent ones
(source lines 244-249; the set is only consumed through `sorted`). -/
def collectQueueIds (ms : List Match) : List ℤ :=
  ms.foldl (fun acc m =>
    match m.queueId with
    | some q => if q ∈ acc then acc else acc ++ [q]
    | none => acc) []

/-- Embedding of `get_available_modes` (source lines 231-263): distinct
queue ids sorted ascending, each mapped to id string and display name. -/
def get_available_modes (ms : List Match) : List ModeEntry :=
  if ms = [] then []
  else
    ((collectQueueIds ms).insertionSort (· ≤ ·)).map
      (fun q => { id := toString q, name := get_queue_name q })

/-- First occurrences: `firstOccsAux seen l` lists the elements of `l`
not in `seen`, each at its first occurrence, in order of first
occurrence. -/
def firstOccsAux (seen : List String) : List String → List String
  | [] => []
  | a :: as => if a ∈ seen then firstOccsAux seen as else a :: firstOccsAux (a :: seen) as

/-- The distinct elements of `l` in order of first occurrence. -/
def firstOccs (l : List String) : List String := firstOccsAux [] l

/-- The winning Ahri match of the spec's aggregation scenario. -/
def ahriWinData : MyData :=
  { championName := "Ahri", win := true, kills := 10, deaths := 2, assists := 5,
    totalDamageDealtToChampions := 20000, totalDamageTaken := 10000 }

/-- The losing Ahri match of the spec's aggregation scenario. -/
def ahriLossData : MyData :=
  { championName := "Ahri", win := false, kills := 2, deaths := 8, assists := 3,
    totalDamageDealtToChampions := 8000, totalDamageTaken := 15000 }

/-- Match record carrying `ahriWinData`; its `gameVersion` is the
`"14.3.456.789"` record of the patch-filter scenario. -/
def ahriWinMatch : Match :=
  { matchId := "m1", gameCreation := 1000, queueId := some 420, gameDuration := 1800,
    gameVersion := "14.3.456.789", myData := ahriWinData }

/-- Match record carrying `ahriLossData`; its `gameVersion` is the
`"14.30.1.1"` record of the patch-filter scenario. -/
def ahriLossMatch : Match :=
  { matchId := "m2", gameCreation := 2000, queueId := some 420, gameDuration := 1900,
    gameVersion := "14.30.1.1", myData := ahriLossData }

/-! Order facts about `strLtB`, Python's string comparison. -/

lemma strLtB_irrefl : ∀ a : List Char, strLtB a a = false := by
  intro a
  induction a with
  | nil => rfl
  | cons x xs ih => simp [strLtB, if_neg (lt_irrefl x), ih]

lemma strLtB_trans : ∀ a b c : List Char,
    strLtB a b = true → strLtB b c = true → strLtB a c = true := by
  intro a
  induction a with
  | nil =>
    intro b c h1 h2
    cases b with
    | nil => simp [strLtB] at h1
    | cons y ys =>
      cases c with
      | nil => simp [strLtB] at h2
      | cons z zs => simp [strLtB]
  | cons x xs ih =>
    intro b c h1 h2
    cases b with
    | nil => simp [strLtB] at h1
    | cons y ys =>
      cases c with
      | nil => simp [strLtB] at h2
      | cons z zs =>
        simp only [strLtB] at h1 h2 ⊢
        by_cases hxy : x < y
        · by_cases hyz : y < z
          · rw [if_pos (lt_trans hxy hyz)]
          · rw [if_neg hyz] at h2
            by_cases hyz2 : y = z
            · rw [if_pos (hyz2 ▸ hxy)]
            · rw [if_neg hyz2] at h2
              exact absurd h2 (by simp)
        · rw [if_neg hxy] at h1
          by_cases hxy2 : x = y
          · subst hxy2
            rw [if_pos rfl] at h1
            by_cases hxz : x < z
            · rw [if_pos hxz]
            · rw [if_neg hxz] at h2 ⊢
              by_cases hxz2 : x = z
              · rw [if_pos hxz2] at h2 ⊢
                exact ih ys zs h1 h2
              · rw [if_neg hxz2] at h2
                exact absurd h2 (by simp)
          · rw [if_neg hxy2] at h1
            exact absurd h1 (by simp)

lemma strLtB_not_lt : ∀ a b : List Char,
    strLtB a b = false → a = b ∨ strLtB b a = true := by
  intro a
  induction a with
  | nil =>
    intro b h
    cases b with
    | nil => exact Or.inl rfl
    | cons y ys => simp [strLtB] at h
  | cons x xs ih =>
    intro b h
    cases b with
    | nil => exact Or.inr (by simp [strLtB])
    | cons y ys =>
      simp only [strLtB] at h ⊢
      by_cases hxy : x < y
      · rw [if_pos hxy] at h
        exact absurd h (by simp)
      · rw [if_neg hxy] at h
        by_cases hxy2 : x = y
        · subst hxy2
          rw [if_pos rfl] at h
          rcases ih ys h with heq | hlt
          · exact Or.inl (by rw [heq])
          · refine Or.inr ?_
            rw [if_neg (lt_irrefl x), if_pos rfl]
            exact hlt
        · have hyx : y < x := lt_of_le_of_ne (not_lt.mp hxy) (Ne.symm hxy2)
          exact Or.inr (by rw [if_pos hyx])

lemma strLtB_asymm (a b : List Char) (h : strLtB a b = true) : strLtB b a = false := by
  cases hh : strLtB b a with
  | false => rfl
  | true =>
    have := strLtB_trans a b a h hh
    rw [strLtB_irrefl] at this
    exact absurd this (by simp)

instance : IsTotal String stringGe :=
  ⟨fun a b => by
    by_cases h : strLtB a.data b.data = true
    · exact Or.inr (strLtB_asymm _ _ h)
    · exact Or.inl (by simpa using h)⟩

instance : IsTrans String stringGe :=
  ⟨fun a b c h1 h2 => by
    unfold stringGe at h1 h2 ⊢
    rcases strLtB_not_lt _ _ h1 with heq | hba
    · rw [heq]; exact h2
    · rcases strLtB_not_lt _ _ h2 with heq2 | hcb
      · rw [← heq2]; exact h1
      · by_cases hac : strLtB a.data c.data = true
        · have h1x := strLtB_trans _ _ _ hac hcb
          rw [h1x] at h1
          exact absurd h1 (by simp)
        · simpa using hac⟩

/-! Bounds for the rounding helpers. -/

lemma pyRound_bounds (q : ℚ) :
    q - 1/2 ≤ (pyRound q : ℚ) ∧ (pyRound q : ℚ) ≤ q + 1/2 := by
  have h1 : (⌊q⌋ : ℚ) ≤ q := Int.floor_le q
  have h2 : q < ⌊q⌋ + 1 := Int.lt_floor_add_one q
  unfold pyRound
  split_ifs with hlt hgt hev
  · constructor <;> linarith
  · constructor <;> push_cast <;> linarith
  · have heq : q - (⌊q⌋ : ℚ) = 1/2 := le_antisymm (not_lt.mp hgt) (not_lt.mp hlt)
    constructor <;> linarith
  · have heq : q - (⌊q⌋ : ℚ) = 1/2 := le_antisymm (not_lt.mp hgt) (not_lt.mp hlt)
    constructor <;> push_cast <;> linarith

lemma pyRoundTo_one_bounds (q : ℚ) (h0 : 0 ≤ q) (h100 : q ≤ 100) :
    0 ≤ pyRoundTo 1 q ∧ pyRoundTo 1 q ≤ 100 := by
  obtain ⟨hl, hr⟩ := pyRound_bounds (q * 10 ^ 1)
  unfold pyRoundTo
  have hten : (10 : ℚ) ^ 1 = 10 := by norm_num
  rw [hten] at hl hr ⊢
  have hzl : (-1 : ℚ) < (pyRound (q * 10) : ℚ) := by linarith
  have hzl2 : (-1 : ℤ) < pyRound (q * 10) := by exact_mod_cast hzl
  have hzr : (pyRound (q * 10) : ℚ) < 1001 := by linarith
  have hzr2 : pyRound (q * 10) < 1001 := by exact_mod_cast hzr
  constructor
  · apply div_nonneg _ (by norm_num)
    have : (0 : ℤ) ≤ pyRound (q * 10) := by omega
    exact_mod_cast this
  · rw [div_le_iff₀ (by norm_num : (0:ℚ) < 10)]
    have : pyRound (q * 10) ≤ 1000 := by omega
    calc (pyRound (q * 10) : ℚ) ≤ 1000 := by exact_mod_cast this
    _ = 100 * 10 := by norm_num

/-! Stability of `insertionSort`: filtering by a property on which the
sort relation is universal commutes with sorting. -/

lemma insertionSort_filter_eq {α : Type*} (r : α → α → Prop) [DecidableRel r]
    (l : List α) (p : α → Bool) (hp : ∀ a b, p a = true → p b = true → r a b) :
    (l.insertionSort r).filter p = l.filter p := by
  have hpair : (l.filter p).Pairwise r := by
    apply List.pairwise_of_forall_mem_list
    intro a ha b hb
    exact hp a b (List.of_mem_filter ha) (List.of_mem_filter hb)
  have hsub : l.filter p <+ l.insertionSort r :=
    List.sublist_insertionSort hpair (List.filter_sublist l)
  have hidem : (l.filter p).filter p = l.filter p := by
    simp [List.filter_filter]
  have hsub2 : l.filter p <+ (l.insertionSort r).filter p := by
    have h2 := hsub.filter p
    rwa [hidem] at h2
  have hlen : ((l.insertionSort r).filter p).length = (l.filter p).length :=
    ((List.perm_insertionSort r l).filter p).length_eq
  exact (hsub2.eq_of_length hlen.symm).symm

/-! Facts about `firstOccs` and the grouping fold. -/

lemma mem_firstOccsAux : ∀ (l seen : List String) (x : String),
    x ∈ firstOccsAux seen l ↔ (x ∈ l ∧ x ∉ seen) := by
  intro l
  induction l with
  | nil => simp [firstOccsAux]
  | cons a as ih =>
    intro seen x
    by_cases ha : a ∈ seen
    · simp only [firstOccsAux, if_pos ha, ih, List.mem_cons]
      constructor
      · rintro ⟨h1, h2⟩
        exact ⟨Or.inr h1, h2⟩
      · rintro ⟨h1 | h1, h2⟩
        · exact absurd (h1 ▸ ha) h2
        · exact ⟨h1, h2⟩
    · simp only [firstOccsAux, if_neg ha, List.mem_cons, ih]
      constructor
      · rintro (rfl | ⟨h1, h2⟩)
        · exact ⟨Or.inl rfl, ha⟩
        · have hxa : ¬(x = a ∨ x ∈ seen) := by simpa [List.mem_cons] using h2
          push_neg at hxa
          exact ⟨Or.inr h1, hxa.2⟩
      · rintro ⟨rfl | h1, h2⟩
        · exact Or.inl rfl
        · by_cases hxa : x = a
          · exact Or.inl hxa
          · exact Or.inr ⟨h1, by simp [List.mem_cons, hxa, h2]⟩

lemma nodup_firstOccsAux : ∀ (l seen : List String), (firstOccsAux seen l).Nodup := by
  intro l
  induction l with
  | nil => intro seen; simp [firstOccsAux]
  | cons a as ih =>
    intro seen
    by_cases ha : a ∈ seen
    · simpa only [firstOccsAux, if_pos ha] using ih seen
    · simp only [firstOccsAux, if_neg ha]
      refine List.nodup_cons.mpr ⟨?_, ih _⟩
      intro hmem
      rcases (mem_firstOccsAux as (a :: seen) a).mp hmem with ⟨_, h2⟩
      exact h2 (List.mem_cons_self a seen)

lemma mem_firstOccs (l : List String) (x : String) : x ∈ firstOccs l ↔ x ∈ l := by
  simp [firstOccs, mem_firstOccsAux]

lemma nodup_firstOccs (l : List String) : (firstOccs l).Nodup := nodup_firstOccsAux l []

/-- Accumulated game count of the champion dict. -/
def sumGames (aggs : List ChampionAgg) : ℤ := (aggs.map ChampionAgg.games).sum

/-- Champion names of the dict, in insertion order. -/
def aggNames (aggs : List ChampionAgg) : List String := aggs.map ChampionAgg.championName

lemma sumGames_insertMatch (aggs : List ChampionAgg) (md : MyData) :
    sumGames (insertMatch aggs md) = sumGames aggs + 1 := by
  induction aggs with
  | nil => simp [insertMatch, sumGames, updateAgg, initAgg]
  | cons a rest ih =>
    by_cases h : a.championName = md.championName
    · simp only [insertMatch, if_pos h, sumGames, List.map_cons, List.sum_cons, updateAgg]
      ring
    · simp only [insertMatch, if_neg h, sumGames, List.map_cons, List.sum_cons] at ih ⊢
      omega

lemma sumGames_foldl : ∀ (ms : List Match) (aggs : List ChampionAgg),
    sumGames (ms.foldl aggStep aggs) = sumGames aggs + (ms.length : ℤ) := by
  intro ms
  induction ms with
  | nil => intro aggs; simp
  | cons m rest ih =>
    intro aggs
    simp only [List.foldl_cons, List.length_cons, ih, aggStep, sumGames_insertMatch]
    push_cast
    ring

lemma sumGames_buildAggs (ms : List Match) : sumGames (buildAggs ms) = (ms.length : ℤ) := by
  have := sumGames_foldl ms []
  simpa [buildAggs, sumGames] using this

lemma aggNames_insertMatch (aggs : List ChampionAgg) (md : MyData) :
    aggNames (insertMatch aggs md) =
      if md.championName ∈ aggNames aggs then aggNames aggs
      else aggNames aggs ++ [md.championName] := by
  induction aggs with
  | nil => simp [insertMatch, aggNames, updateAgg, initAgg]
  | cons a rest ih =>
    by_cases h : a.championName = md.championName
    · simp only [insertMatch, if_pos h, aggNames, List.map_cons, updateAgg, List.mem_cons]
      rw [if_pos (Or.inl h.symm)]
    · simp only [insertMatch, if_neg h, aggNames, List.map_cons, List.mem_cons] at ih ⊢
      by_cases hmem : md.championName ∈ List.map ChampionAgg.championName rest
      · rw [if_pos (Or.inr hmem)]
        rw [if_pos hmem] at ih
        rw [ih]
      · rw [if_neg (by rintro (h1 | h1); exact h (h1.symm); exact hmem h1)]
        rw [if_neg hmem] at ih
        rw [ih]
        simp

lemma aggNames_foldl : ∀ (ms : List Match) (aggs : List ChampionAgg) (seen : List String),
    (∀ x, x ∈ seen ↔ x ∈ aggNames aggs) →
    aggNames (ms.foldl aggStep aggs) =
      aggNames aggs ++ firstOccsAux seen (ms.map (fun m => m.myData.championName)) := by
  intro ms
  induction ms with
  | nil => intro aggs seen _; simp [firstOccsAux]
  | cons m rest ih =>
    intro aggs seen hseen
    simp only [List.foldl_cons, List.map_cons]
    by_cases hmem : m.myData.championName ∈ aggNames aggs
    · have h1 : aggNames (aggStep aggs m) = aggNames aggs := by
        rw [aggStep, aggNames_insertMatch, if_pos hmem]
      rw [ih (aggStep aggs m) seen (by rw [h1]; exact hseen), h1]
      rw [firstOccsAux, if_pos ((hseen _).mpr hmem)]
    · have h1 : aggNames (aggStep aggs m) = aggNames aggs ++ [m.myData.championName] := by
        rw [aggStep, aggNames_insertMatch, if_neg hmem]
      rw [ih (aggStep aggs m) (m.myData.championName :: seen) ?_, h1]
      · rw [firstOccsAux, if_neg (fun hx => hmem ((hseen _).mp hx))]
        simp
      · intro x
        simp only [h1, List.mem_cons, List.mem_append, List.mem_singleton, hseen x]
        tauto

lemma aggNames_buildAggs (ms : List Match) :
    aggNames (buildAggs ms) = firstOccs (ms.map (fun m => m.myData.championName)) := by
  have := aggNames_foldl ms [] [] (by simp [aggNames])
  simpa [buildAggs, firstOccs] using this

lemma insertMatch_wins_bounds : ∀ (aggs : List ChampionAgg) (md : MyData),
    (∀ a ∈ aggs, 0 ≤ a.wins ∧ a.wins ≤ a.games) →
    ∀ b ∈ insertMatch aggs md, 0 ≤ b.wins ∧ b.wins ≤ b.games := by
  intro aggs
  induction aggs with
  | nil =>
    intro md _ b hb
    simp only [insertMatch, List.mem_singleton] at hb
    subst hb
    dsimp [updateAgg, initAgg]
    split <;> omega
  | cons a rest ih =>
    intro md h b hb
    by_cases hc : a.championName = md.championName
    · simp only [insertMatch, if_pos hc, List.mem_cons] at hb
      rcases hb with rfl | hb
      · have ha := h a (List.mem_cons_self a rest)
        dsimp [updateAgg]
        split <;> omega
      · exact h b (List.mem_cons_of_mem _ hb)
    · simp only [insertMatch, if_neg hc, List.mem_cons] at hb
      rcases hb with rfl | hb
      · exact h b (List.mem_cons_self b rest)
      · exact ih md (fun x hx => h x (List.mem_cons_of_mem _ hx)) b hb

lemma buildAggs_wins_bounds : ∀ (ms : List Match) (aggs : List ChampionAgg),
    (∀ a ∈ aggs, 0 ≤ a.wins ∧ a.wins ≤ a.games) →
    ∀ b ∈ ms.foldl aggStep aggs, 0 ≤ b.wins ∧ b.wins ≤ b.games := by
  intro ms
  induction ms with
  | nil => intro aggs h; simpa using h
  | cons m rest ih =>
    intro aggs h
    exact ih _ (insertMatch_wins_bounds aggs m.myData h)

/-! Membership and distinctness of the collected patch and queue-id
lists. -/

lemma mem_collectPatches_fold : ∀ (ms : List Match) (acc : List String) (x : String),
    x ∈ ms.foldl (fun acc m =>
        match patchOf m with
        | some p => if p ∈ acc then acc else acc ++ [p]
        | none => acc) acc ↔
      (x ∈ acc ∨ ∃ m ∈ ms, patchOf m = some x) := by
  intro ms
  induction ms with
  | nil => simp
  | cons m rest ih =>
    intro acc x
    simp only [List.foldl_cons]
    cases hp : patchOf m with
    | none =>
      dsimp only
      rw [ih]
      simp [hp]
    | some p =>
      dsimp only
      by_cases hmem : p ∈ acc
      · rw [if_pos hmem, ih]
        simp only [List.mem_cons, hp]
        constructor
        · rintro (h1 | ⟨m2, hm2, hx⟩)
          · exact Or.inl h1
          · exact Or.inr ⟨m2, Or.inr hm2, hx⟩
        · rintro (h1 | ⟨m2, hm2 | hm2, hx⟩)
          · exact Or.inl h1
          · exact Or.inl (by rw [hm2, hp] at hx; cases hx; exact hmem)
          · exact Or.inr ⟨m2, hm2, hx⟩
      · rw [if_neg hmem, ih]
        simp only [List.mem_append, List.mem_singleton, List.mem_cons, List.not_mem_nil, or_false]
        constructor
        · rintro ((h1 | h1) | ⟨m2, hm2, hx⟩)
          · exact Or.inl h1
          · exact Or.inr ⟨m, Or.inl rfl, by rw [hp, h1]⟩
          · exact Or.inr ⟨m2, Or.inr hm2, hx⟩
        · rintro (h1 | ⟨m2, hm2 | hm2, hx⟩)
          · exact Or.inl (Or.inl h1)
          · exact Or.inl (Or.inr (by rw [hm2, hp] at hx; cases hx; rfl))
          · exact Or.inr ⟨m2, hm2, hx⟩

lemma mem_collectPatches (ms : List Match) (x : String) :
    x ∈ collectPatches ms ↔ ∃ m ∈ ms, patchOf m = some x := by
  rw [collectPatches, mem_collectPatches_fold]
  simp

lemma nodup_collectPatches_fold : ∀ (ms : List Match) (acc : List String), acc.Nodup →
    (ms.foldl (fun acc m =>
        match patchOf m with
        | some p => if p ∈ acc then acc else acc ++ [p]
        | none => acc) acc).Nodup := by
  intro ms
  induction ms with
  | nil => intro acc h; simpa
  | cons m rest ih =>
    intro acc h
    simp only [List.foldl_cons]
    cases hp : patchOf m with
    | none => exact ih acc h
    | some p =>
      dsimp only
      by_cases hmem : p ∈ acc
      · rw [if_pos hmem]; exact ih acc h
      · rw [if_neg hmem]
        refine ih _ ?_
        simp [List.nodup_append, h, hmem]

lemma nodup_collectPatches (ms : List Match) : (collectPatches ms).Nodup :=
  nodup_collectPatches_fold ms [] (by simp)

lemma mem_collectQueueIds_fold : ∀ (ms : List Match) (acc : List ℤ) (x : ℤ),
    x ∈ ms.foldl (fun acc m =>
        match m.queueId with
        | some q => if q ∈ acc then acc else acc ++ [q]
        | none => acc) acc ↔
      (x ∈ acc ∨ ∃ m ∈ ms, m.queueId = some x) := by
  intro ms
  induction ms with
  | nil => simp
  | cons m rest ih =>
    intro acc x
    simp only [List.foldl_cons]
    cases hp : m.queueId with
    | none =>
      dsimp only
      rw [ih]
      simp [hp]
    | some p =>
      dsimp only
      by_cases hmem : p ∈ acc
      · rw [if_pos hmem, ih]
        simp only [List.mem_cons, hp]
        constructor
        · rintro (h1 | ⟨m2, hm2, hx⟩)
          · exact Or.inl h1
          · exact Or.inr ⟨m2, Or.inr hm2, hx⟩
        · rintro (h1 | ⟨m2, hm2 | hm2, hx⟩)
          · exact Or.inl h1
          · exact Or.inl (by rw [hm2, hp] at hx; cases hx; exact hmem)
          · exact Or.inr ⟨m2, hm2, hx⟩
      · rw [if_neg hmem, ih]
        simp only [List.mem_append, List.mem_singleton, List.mem_cons, List.not_mem_nil, or_false]
        constructor
        · rintro ((h1 | h1) | ⟨m2, hm2, hx⟩)
          · exact Or.inl h1
          · exact Or.inr ⟨m, Or.inl rfl, by rw [hp, h1]⟩
          · exact Or.inr ⟨m2, Or.inr hm2, hx⟩
        · rintro (h1 | ⟨m2, hm2 | hm2, hx⟩)
          · exact Or.inl (Or.inl h1)
          · exact Or.inl (Or.inr (by rw [hm2, hp] at hx; cases hx; rfl))
          · exact Or.inr ⟨m2, hm2, hx⟩

lemma mem_collectQueueIds (ms : List Match) (x : ℤ) :
    x ∈ collectQueueIds ms ↔ ∃ m ∈ ms, m.queueId = some x := by
  rw [collectQueueIds, mem_collectQueueIds_fold]
  simp

lemma nodup_collectQueueIds_fold : ∀ (ms : List Match) (acc : List ℤ), acc.Nodup →
    (ms.foldl (fun acc m =>
        match m.queueId with
        | some q => if q ∈ acc then acc else acc ++ [q]
        | none => acc) acc).Nodup := by
  intro ms
  induction ms with
  | nil => intro acc h; simpa
  | cons m rest ih =>
    intro acc h
    simp only [List.foldl_cons]
    cases hp : m.queueId with
    | none => exact ih acc h
    | some p =>
      dsimp only
      by_cases hmem : p ∈ acc
      · rw [if_pos hmem]; exact ih acc h
      · rw [if_neg hmem]
        refine ih _ ?_
        simp [List.nodup_append, h, hmem]

lemma nodup_collectQueueIds (ms : List Match) : (collectQueueIds ms).Nodup :=
  nodup_collectQueueIds_fold ms [] (by simp)

lemma splitDot_no_dot : ∀ (l : List Char), ∀ s ∈ splitDot l, '.' ∉ s := by
  intro l
  induction l with
  | nil =>
    intro s hs
    simp only [splitDot, List.mem_singleton] at hs
    subst hs
    simp
  | cons c rest ih =>
    intro s hs
    by_cases hc : c = '.'
    · simp only [splitDot, if_pos hc, List.mem_cons] at hs
      rcases hs with rfl | hs
      · simp
      · exact ih s hs
    · simp only [splitDot, if_neg hc] at hs
      cases hsp : splitDot rest with
      | nil =>
        rw [hsp] at hs
        simp only [List.mem_singleton] at hs
        subst hs
        simp only [List.mem_singleton]
        exact fun h => hc h.symm
      | cons t ts =>
        rw [hsp] at hs
        simp only [List.mem_cons] at hs
        rcases hs with rfl | hs
        · intro hdot
          rcases List.mem_cons.mp hdot with h1 | h1
          · exact hc h1.symm
          · exact ih t (by rw [hsp]; exact List.mem_cons_self t ts) h1
        · exact ih s (by rw [hsp]; exact List.mem_cons_of_mem t hs)

/-! An object-store model for the frame claim.  The heap holds the
match-list objects reachable from the caller; `Ref` is an index into it.
Each `...H` function below retraces its Python body statement by
statement at the level of list objects: `matches.copy()`, each list
comprehension, `sorted(...)` and each slice allocate a fresh cell, reads
go through `readRef`, and no statement of the source ever assigns into
the cell of the input list.  The champion dicts and the stat list built
by `calculate_champion_stats` are not match-list objects and are freshly
constructed, so its single in-place `champion_stats.sort(...)` cannot
touch the store; the patch and mode extractors only read. -/

abbrev Ref := ℕ

abbrev Store := List (List Match)

/-- Read the list object behind `r` (absent cells read as empty). -/
def readRef (st : Store) (r : Ref) : List Match := st.getD r []

/-- Heap translation of `filter_matches`: allocate the `matches.copy()`,
allocate the comprehension result of each filter block that runs, and
return a reference to the final `filtered` binding. -/
def filter_matchesH (st : Store) (r : Ref) (period mode : String) (now : ℤ) : Store × Ref :=
  let st1 := st ++ [readRef st r]
  let f0 : Ref := st.length
  let stp : Store × Ref :=
    if period = "all" then (st1, f0)
    else (st1 ++ [periodFilter (readRef st1 f0) period now], st1.length)
  if mode = "all" then stp
  else
    match pyInt mode with
    | some queueId =>
      (stp.1 ++ [(readRef stp.1 stp.2).filter (fun m => m.queueId == some queueId)], stp.1.length)
    | none => stp

/-- Heap translation of `calculate_champion_stats`: the filter call, then
a pure computation over the read value of `filtered`. -/
def calculate_champion_statsH (st : Store) (r : Ref) (period mode : String) (now : ℤ) :
    Store × List ChampionStat :=
  let res := filter_matchesH st r period mode now
  (res.1,
    if readRef res.1 res.2 = [] then []
    else ((buildAggs (readRef res.1 res.2)).map finalize).insertionSort statLe)

/-- Heap translation of `get_recent_matches`: `sorted(...)` allocates a
new list, and the slice `[:count]` allocates another. -/
def get_recent_matchesH (st : Store) (r : Ref) (count : ℕ) : Store × Ref :=
  let st1 := st ++ [(readRef st r).insertionSort recentLe]
  let st2 := st1 ++ [((readRef st r).insertionSort recentLe).take count]
  (st2, st1.length)

/-- Heap translation of `get_available_patches`: the body only reads the
input list (the patch set and the sorted result are not match lists). -/
def get_available_patchesH (st : Store) (r : Ref) : Store × List String :=
  (st, get_available_patches (readRef st r))

/-- Heap translation of `get_available_modes`: the body only reads the
input list. -/
def get_available_modesH (st : Store) (r : Ref) : Store × List ModeEntry :=
  (st, get_available_modes (readRef st r))

lemma readRef_append (st : Store) (l : Store) (r : Ref) (h : r < st.length) :
    readRef (st ++ l) r = readRef st r := by
  unfold readRef
  rw [List.getD_eq_getElem?_getD, List.getD_eq_getElem?_getD, List.getElem?_append_left h]

lemma filter_matchesH_frame (st : Store) (r : Ref) (period mode : String) (now : ℤ)
    (h : r < st.length) :
    readRef (filter_matchesH st r period mode now).1 r = readRef st r := by
  unfold filter_matchesH
  dsimp only
  by_cases h2 : mode = "all"
  · rw [if_pos h2]
    by_cases h1 : period = "all"
    · rw [if_pos h1]
      exact readRef_append st _ r h
    · rw [if_neg h1]
      dsimp only
      simp only [List.append_assoc]
      exact readRef_append st _ r h
  · rw [if_neg h2]
    cases pyInt mode with
    | none =>
      by_cases h1 : period = "all"
      · rw [if_pos h1]
        exact readRef_append st _ r h
      · rw [if_neg h1]
        dsimp only
        simp only [List.append_assoc]
        exact readRef_append st _ r h
    | some q =>
      dsimp only
      by_cases h1 : period = "all"
      · rw [if_pos h1]
        dsimp only
        simp only [List.append_assoc]
        exact readRef_append st _ r h
      · rw [if_neg h1]
        dsimp only
        simp only [List.append_assoc]
        exact readRef_append st _ r h

lemma calc_stats_eq (ms : List Match) (period mode : String) (now : ℤ)
    (h : filter_matches ms period mode now ≠ []) :
    calculate_champion_stats ms period mode now =
      ((buildAggs (filter_matches ms period mode now)).map finalize).insertionSort statLe := by
  rw [calculate_champion_stats, if_neg h]

lemma finalize_games (a : ChampionAgg) : (finalize a).games = a.games := rfl

lemma finalize_wins (a : ChampionAgg) : (finalize a).wins = a.wins := rfl

lemma finalize_losses (a : ChampionAgg) : (finalize a).losses = a.games - a.wins := rfl

lemma finalize_winRate (a : ChampionAgg) : (finalize a).winRate =
    pyRoundTo 1 (if 0 < a.games then (a.wins : ℚ) / (a.games : ℚ) * 100 else 0) := rfl

lemma stringDataEq {a b : String} (h : a.data = b.data) : a = b := by
  cases a
  cases b
  exact congrArg String.mk h

/-! The claim theorems. -/

/-- C1: aggregating the two Ahri scenario matches with period "all" and
mode "all" (at any wall-clock instant) returns exactly one champion
aggregate, with games 2, wins 1, losses 1, winRate 50.0, avgKDA 2.0
(that is, (totalKills + totalAssists) / max(totalDeaths, 1) rounded to
2 decimals), avgDamageDealt 14000 and avgDamageTaken 12500. -/
theorem C1_aggregation_scenario : ∀ now : ℤ,
    calculate_champion_stats [ahriWinMatch, ahriLossMatch] "all" "all" now =
      [{ championName := "Ahri", games := 2, wins := 1, losses := 1, winRate := 50,
         totalKills := 12, totalDeaths := 10, totalAssists := 8, avgKDA := 2,
         avgDamageDealt := 14000, avgDamageTaken := 12500 }] := by
  intro now
  have h : calculate_champion_stats [ahriWinMatch, ahriLossMatch] "all" "all" now =
      calculate_champion_stats [ahriWinMatch, ahriLossMatch] "all" "all" 0 := rfl
  rw [h]
  decide

/-- C5: for a period of the patch form, the filter keeps exactly the
records whose gameVersion starts with the literal patch string (order
preserved, a string-prefix match); in particular, under "patch_14.3" the
records with gameVersion "14.3.456.789" and "14.30.1.1" are both kept. -/
theorem C5_patch_prefix :
    (∀ (ms : List Match) (period v : String) (now : ℤ),
        strStartsWith period "patch_" = true →
        pyReplace period "patch_" "" = v →
        filter_matches ms period "all" now =
          ms.filter (fun m => strStartsWith m.gameVersion v)) ∧
    filter_matches [ahriWinMatch, ahriLossMatch] "patch_14.3" "all" 0 =
      [ahriWinMatch, ahriLossMatch] := by
  constructor
  · intro ms period v now h1 h2
    have hne : period ≠ "all" := by
      intro he
      rw [he] at h1
      exact absurd h1 (by decide)
    rw [filter_matches, modeFilter, if_pos rfl, periodFilter, if_neg hne, if_pos h1, h2]
  · decide

theorem C5_patch_prefix_witness :
    filter_matches [ahriWinMatch, ahriLossMatch] "patch_14.3" "all" 0 =
      List.filter (fun m => strStartsWith m.gameVersion "14.3") [ahriWinMatch, ahriLossMatch] :=
  C5_patch_prefix.1 [ahriWinMatch, ahriLossMatch] "patch_14.3" "14.3" 0 (by decide) (by decide)

/-- C6: an unparseable mode silently skips the mode filter, an
unrecognized period silently skips the period filter, and with both the
full input list is returned unchanged (never an error: the embedding is
total and no record field is even read in that case). -/
theorem C6_silent_skip :
    (∀ (ms : List Match) (period mode : String) (now : ℤ),
        pyInt mode = none →
        filter_matches ms period mode now = filter_matches ms period "all" now) ∧
    (∀ (ms : List Match) (period mode : String) (now : ℤ),
        strStartsWith period "patch_" = false →
        period ≠ "this_week" → period ≠ "last_week" →
        period ≠ "last_30_days" → period ≠ "last_7_days" →
        filter_matches ms period mode now = filter_matches ms "all" mode now) ∧
    (∀ (ms : List Match) (period mode : String) (now : ℤ),
        pyInt mode = none →
        strStartsWith period "patch_" = false →
        period ≠ "this_week" → period ≠ "last_week" →
        period ≠ "last_30_days" → period ≠ "last_7_days" →
        filter_matches ms period mode now = ms) := by
  have hperiod : ∀ (ms : List Match) (period : String) (now : ℤ),
      strStartsWith period "patch_" = false →
      period ≠ "this_week" → period ≠ "last_week" →
      period ≠ "last_30_days" → period ≠ "last_7_days" →
      periodFilter ms period now = ms := by
    intro ms period now hpatch hw1 hw2 hw3 hw4
    by_cases hall : period = "all"
    · rw [periodFilter, if_pos hall]
    · rw [periodFilter, if_neg hall, if_neg (by simp [hpatch]), if_neg hw1, if_neg hw2,
        if_neg hw3, if_neg hw4]
  have hmode : ∀ (ms : List Match) (mode : String),
      pyInt mode = none → modeFilter ms mode = ms := by
    intro ms mode hm
    by_cases hall : mode = "all"
    · rw [modeFilter, if_pos hall]
    · rw [modeFilter, if_neg hall, hm]
  refine ⟨?_, ?_, ?_⟩
  · intro ms period mode now hm
    rw [filter_matches, filter_matches, hmode _ _ hm, modeFilter, if_pos rfl]
  · intro ms period mode now hpatch hw1 hw2 hw3 hw4
    rw [filter_matches, filter_matches, hperiod ms period now hpatch hw1 hw2 hw3 hw4]
    rfl
  · intro ms period mode now hm hpatch hw1 hw2 hw3 hw4
    rw [filter_matches, hperiod ms period now hpatch hw1 hw2 hw3 hw4, hmode _ _ hm]

theorem C6_silent_skip_witness :
    filter_matches [ahriWinMatch, ahriLossMatch] "latest_patch" "abc" 0 =
      [ahriWinMatch, ahriLossMatch] :=
  C6_silent_skip.2.2 [ahriWinMatch, ahriLossMatch] "latest_patch" "abc" 0
    (by decide) (by decide) (by decide) (by decide) (by decide) (by decide)

/-- C9 counterexample: the claim asserts bit-identical output across
calls at different wall-clock times even for wall-clock-relative periods,
but under "this_week" the same match list aggregates differently at the
epoch and 30 days later (each call reads its own "now"). -/
theorem C9_counterexample :
    calculate_champion_stats [ahriWinMatch] "this_week" "all" 0 ≠
      calculate_champion_stats [ahriWinMatch] "this_week" "all" 2592000000 := by decide

/-- C9 (amended): aggregate is a pure function of its inputs including
the wall-clock instant — two calls with identical inputs and the same
"now" are identical and nothing is mutated — and for period values that
do not depend on the clock ("all" and every "patch_*" period) two calls
at different wall-clock instants also agree; the wall-clock-relative
periods may differ across instants (see the counterexample). -/
theorem C9_determinism :
    (∀ (ms : List Match) (period mode : String) (now : ℤ),
        calculate_champion_stats ms period mode now =
          calculate_champion_stats ms period mode now) ∧
    (∀ (ms : List Match) (mode : String) (n1 n2 : ℤ),
        calculate_champion_stats ms "all" mode n1 =
          calculate_champion_stats ms "all" mode n2) ∧
    (∀ (ms : List Match) (period mode : String) (n1 n2 : ℤ),
        strStartsWith period "patch_" = true →
        calculate_champion_stats ms period mode n1 =
          calculate_champion_stats ms period mode n2) := by
  refine ⟨fun ms period mode now => rfl, fun ms mode n1 n2 => rfl, ?_⟩
  intro ms period mode n1 n2 h1
  have hne : period ≠ "all" := by
    intro he
    rw [he] at h1
    exact absurd h1 (by decide)
  have key : ∀ n : ℤ, periodFilter ms period n =
      ms.filter (fun m => strStartsWith m.gameVersion (pyReplace period "patch_" "")) := by
    intro n
    rw [periodFilter, if_neg hne, if_pos h1]
  unfold calculate_champion_stats filter_matches
  rw [key n1, key n2]

theorem C9_determinism_witness :
    calculate_champion_stats [ahriWinMatch] "patch_14.3" "all" 0 =
      calculate_champion_stats [ahriWinMatch] "patch_14.3" "all" 999999999 :=
  C9_determinism.2.2 [ahriWinMatch] "patch_14.3" "all" 0 999999999 (by decide)

/-- C10: no operation mutates its input: in the store model, each of
filter_matches, calculate_champion_stats and get_recent_matches leaves
the input list's cell unchanged (their writes are all allocations of
fresh cells), and get_available_patches and get_available_modes leave
the whole store untouched. -/
theorem C10_no_mutation (st : Store) (r : Ref) (period mode : String) (now : ℤ) (count : ℕ)
    (h : r < st.length) :
    readRef (filter_matchesH st r period mode now).1 r = readRef st r ∧
    readRef (calculate_champion_statsH st r period mode now).1 r = readRef st r ∧
    readRef (get_recent_matchesH st r count).1 r = readRef st r ∧
    (get_available_patchesH st r).1 = st ∧
    (get_available_modesH st r).1 = st := by
  refine ⟨filter_matchesH_frame st r period mode now h, ?_, ?_, rfl, rfl⟩
  · unfold calculate_champion_statsH
    dsimp only
    exact filter_matchesH_frame st r period mode now h
  · unfold get_recent_matchesH
    dsimp only
    simp only [List.append_assoc]
    exact readRef_append st _ r h

theorem C10_no_mutation_witness :
    readRef (filter_matchesH [[ahriWinMatch]] 0 "all" "all" 0).1 0 = [ahriWinMatch] := by
  rw [(C10_no_mutation [[ahriWinMatch]] 0 "all" "all" 0 20 (by decide)).1]
  decide

/-- C2: for every input, the aggregate list has at most as many entries
as there are distinct champion names among the filtered matches, its
game counts sum to the number of filtered matches, every entry satisfies
losses + wins = games and 0 ≤ winRate ≤ 100, and an empty filtered list
yields the empty list, not an error. -/
theorem C2_invariants (ms : List Match) (period mode : String) (now : ℤ) :
    (calculate_champion_stats ms period mode now).length ≤
        ((filter_matches ms period mode now).map (fun m => m.myData.championName)).dedup.length ∧
    ((calculate_champion_stats ms period mode now).map ChampionStat.games).sum =
        ((filter_matches ms period mode now).length : ℤ) ∧
    (∀ s ∈ calculate_champion_stats ms period mode now,
        s.losses + s.wins = s.games ∧ 0 ≤ s.winRate ∧ s.winRate ≤ 100) ∧
    (filter_matches ms period mode now = [] →
        calculate_champion_stats ms period mode now = []) := by
  by_cases hf : filter_matches ms period mode now = []
  · have hc : calculate_champion_stats ms period mode now = [] := by
      rw [calculate_champion_stats, if_pos hf]
    rw [hc, hf]
    simp
  · have hc := calc_stats_eq ms period mode now hf
    refine ⟨?_, ?_, ?_, fun h => absurd h hf⟩
    · rw [hc, List.length_insertionSort, List.length_map]
      have h1 : (buildAggs (filter_matches ms period mode now)).length =
          (aggNames (buildAggs (filter_matches ms period mode now))).length := by
        rw [aggNames, List.length_map]
      rw [h1, aggNames_buildAggs]
      have hperm : firstOccs ((filter_matches ms period mode now).map
            (fun m => m.myData.championName)) ~
          ((filter_matches ms period mode now).map (fun m => m.myData.championName)).dedup :=
        (List.perm_ext_iff_of_nodup (nodup_firstOccs _) (List.nodup_dedup _)).mpr
          (fun x => by rw [mem_firstOccs, List.mem_dedup])
      exact le_of_eq hperm.length_eq
    · rw [hc]
      have hperm := List.perm_insertionSort statLe
        ((buildAggs (filter_matches ms period mode now)).map finalize)
      rw [(hperm.map ChampionStat.games).sum_eq, List.map_map]
      have hcomp : (ChampionStat.games ∘ finalize) = ChampionAgg.games := funext (fun a => rfl)
      rw [hcomp]
      exact sumGames_buildAggs (filter_matches ms period mode now)
    · intro s hs
      rw [hc, List.mem_insertionSort] at hs
      obtain ⟨a, ha, rfl⟩ := List.mem_map.mp hs
      have hinv := buildAggs_wins_bounds (filter_matches ms period mode now) [] (by simp) a ha
      refine ⟨?_, ?_⟩
      · rw [finalize_losses, finalize_wins, finalize_games]
        ring
      · rw [finalize_winRate]
        by_cases hg : 0 < a.games
        · rw [if_pos hg]
          have hw0 : (0 : ℚ) ≤ (a.wins : ℚ) := by exact_mod_cast hinv.1
          have hg0 : (0 : ℚ) < (a.games : ℚ) := by exact_mod_cast hg
          have hq1 : 0 ≤ (a.wins : ℚ) / (a.games : ℚ) * 100 :=
            mul_nonneg (div_nonneg hw0 (le_of_lt hg0)) (by norm_num)
          have hq2 : (a.wins : ℚ) / (a.games : ℚ) * 100 ≤ 100 := by
            have hle : (a.wins : ℚ) / (a.games : ℚ) ≤ 1 :=
              (div_le_one hg0).mpr (by exact_mod_cast hinv.2)
            calc (a.wins : ℚ) / (a.games : ℚ) * 100 ≤ 1 * 100 :=
                  mul_le_mul_of_nonneg_right hle (by norm_num)
            _ = 100 := by norm_num
          exact pyRoundTo_one_bounds _ hq1 hq2
        · rw [if_neg hg]
          exact pyRoundTo_one_bounds 0 le_rfl (by norm_num)

theorem C2_invariants_witness :
    calculate_champion_stats [] "all" "all" 0 = [] :=
  (C2_invariants [] "all" "all" 0).2.2.2 rfl

/-- C3: the aggregate list is sorted by games descending, and entries
with equal game counts appear in the order of their champion's first
occurrence in the filtered match list (the stable order of the
insertion-ordered grouping dict), so the output order is deterministic
for identical input order. -/
theorem C3_sorted_stable (ms : List Match) (period mode : String) (now : ℤ) :
    (calculate_champion_stats ms period mode now).Pairwise
        (fun a b => b.games ≤ a.games) ∧
    ∀ g : ℤ,
      ((calculate_champion_stats ms period mode now).filter
            (fun s => s.games == g)).map ChampionStat.championName <+
        firstOccs ((filter_matches ms period mode now).map
            (fun m => m.myData.championName)) := by
  by_cases hf : filter_matches ms period mode now = []
  · have hc : calculate_champion_stats ms period mode now = [] := by
      rw [calculate_champion_stats, if_pos hf]
    rw [hc]
    exact ⟨List.Pairwise.nil, fun g => by simp⟩
  · have hc := calc_stats_eq ms period mode now hf
    constructor
    · rw [hc]
      exact List.sorted_insertionSort statLe _
    · intro g
      rw [hc]
      have hstable := insertionSort_filter_eq statLe
          ((buildAggs (filter_matches ms period mode now)).map finalize)
          (fun s => s.games == g) ?_
      · rw [hstable]
        have hsub : (((buildAggs (filter_matches ms period mode now)).map finalize).filter
              (fun s => s.games == g)) <+
            (buildAggs (filter_matches ms period mode now)).map finalize :=
          List.filter_sublist _
        have hsub2 := hsub.map ChampionStat.championName
        rw [List.map_map] at hsub2
        have hcomp : (ChampionStat.championName ∘ finalize) = ChampionAgg.championName :=
          funext (fun a => rfl)
        rw [hcomp] at hsub2
        have hnames : (buildAggs (filter_matches ms period mode now)).map
              ChampionAgg.championName =
            firstOccs ((filter_matches ms period mode now).map
              (fun m => m.myData.championName)) :=
          aggNames_buildAggs (filter_matches ms period mode now)
        rw [hnames] at hsub2
        exact hsub2
      · intro a b pa pb
        have ha : a.games = g := by simpa using pa
        have hb : b.games = g := by simpa using pb
        show b.games ≤ a.games
        rw [ha, hb]

theorem C3_sorted_stable_witness :
    ((calculate_champion_stats [ahriWinMatch, ahriLossMatch] "all" "all" 0).filter
        (fun s => s.games == 2)).map ChampionStat.championName <+
      firstOccs ((filter_matches [ahriWinMatch, ahriLossMatch] "all" "all" 0).map
        (fun m => m.myData.championName)) :=
  (C3_sorted_stable [ahriWinMatch, ahriLossMatch] "all" "all" 0).2 2

/-- C4: recent(matches, N) returns exactly min(N, len(matches)) records,
ordered non-increasing by gameCreation; records with equal gameCreation
keep their original relative order; and the returned records are the N
largest: the input is a permutation of the output plus a remainder whose
gameCreation values do not exceed any returned one.  No period or mode
filtering is involved (the function has no such parameters). -/
theorem C4_recent_matches (ms : List Match) (count : ℕ) :
    (get_recent_matches ms count).length = min count ms.length ∧
    (get_recent_matches ms count).Pairwise (fun a b => b.gameCreation ≤ a.gameCreation) ∧
    (∀ t : ℤ, (get_recent_matches ms count).filter (fun m => m.gameCreation == t) <+
        ms.filter (fun m => m.gameCreation == t)) ∧
    ∃ rest : List Match, ms ~ get_recent_matches ms count ++ rest ∧
        ∀ a ∈ get_recent_matches ms count, ∀ b ∈ rest, b.gameCreation ≤ a.gameCreation := by
  refine ⟨?_, ?_, ?_, ?_⟩
  · rw [get_recent_matches, List.length_take, List.length_insertionSort]
  · exact List.Pairwise.sublist (List.take_sublist _ _)
      (List.sorted_insertionSort recentLe ms)
  · intro t
    have hstable := insertionSort_filter_eq recentLe ms (fun m => m.gameCreation == t) ?_
    · have h1 : (get_recent_matches ms count).filter (fun m => m.gameCreation == t) <+
          (ms.insertionSort recentLe).filter (fun m => m.gameCreation == t) :=
        (List.take_sublist _ _).filter _
      rw [hstable] at h1
      exact h1
    · intro a b pa pb
      have ha : a.gameCreation = t := by simpa using pa
      have hb : b.gameCreation = t := by simpa using pb
      show b.gameCreation ≤ a.gameCreation
      rw [ha, hb]
  · refine ⟨(ms.insertionSort recentLe).drop count, ?_, ?_⟩
    · have hperm := (List.perm_insertionSort recentLe ms).symm
      have heq : ms.insertionSort recentLe =
          (ms.insertionSort recentLe).take count ++ (ms.insertionSort recentLe).drop count :=
        (List.take_append_drop count _).symm
      rw [get_recent_matches, ← heq]
      exact hperm
    · intro a ha b hb
      have hpair := List.sorted_insertionSort recentLe ms
      rw [← List.take_append_drop count (ms.insertionSort recentLe)] at hpair
      exact (List.pairwise_append.mp hpair).2.2 a ha b hb

theorem C4_recent_matches_witness :
    (get_recent_matches [ahriWinMatch, ahriLossMatch] 20).filter
        (fun m => m.gameCreation == 1000) <+
      List.filter (fun m => m.gameCreation == 1000) [ahriWinMatch, ahriLossMatch] :=
  (C4_recent_matches [ahriWinMatch, ahriLossMatch] 20).2.2.1 1000

/-- C7: availablePatches returns exactly the distinct two-segment
patches of the input records, sorted strictly descending in Python
string order (lexicographic on code points, so "14.10" compares below
"14.9") and truncated to at most 5 entries: the output is the 5-prefix
of the descending-sorted list of precisely the patches present, every
present patch that is dropped is smaller than every kept one, each
entry stems from some record and has the two-part dot shape (a dot-free
segment, a dot, a dot-free segment), and empty input yields the empty
list. -/
theorem C7_available_patches (ms : List Match) :
    (∃ ps : List String, ps.Pairwise (fun a b => strLtB b.data a.data = true) ∧
        (∀ p : String, p ∈ ps ↔ ∃ m ∈ ms, patchOf m = some p) ∧
        get_available_patches ms = ps.take 5) ∧
    (∀ p : String, (∃ m ∈ ms, patchOf m = some p) → p ∉ get_available_patches ms →
        ∀ q ∈ get_available_patches ms, strLtB p.data q.data = true) ∧
    (get_available_patches ms).length ≤ 5 ∧
    (get_available_patches ms).Pairwise (fun a b => strLtB b.data a.data = true) ∧
    (∀ p ∈ get_available_patches ms, ∃ m ∈ ms, patchOf m = some p) ∧
    (∀ p ∈ get_available_patches ms, ∃ x y : List Char,
        '.' ∉ x ∧ '.' ∉ y ∧ p.data = x ++ '.' :: y) ∧
    (ms = [] → get_available_patches ms = []) ∧
    strLtB "14.10".data "14.9".data = true := by
  have hchar : ∃ ps : List String, ps.Pairwise (fun a b => strLtB b.data a.data = true) ∧
      (∀ p : String, p ∈ ps ↔ ∃ m ∈ ms, patchOf m = some p) ∧
      get_available_patches ms = ps.take 5 := by
    by_cases hms : ms = []
    · refine ⟨[], List.Pairwise.nil, ?_, ?_⟩
      · intro p
        simp [hms]
      · rw [get_available_patches, if_pos hms]
        rfl
    · refine ⟨(collectPatches ms).insertionSort stringGe, ?_, ?_, ?_⟩
      · have hsorted : ((collectPatches ms).insertionSort stringGe).Pairwise stringGe :=
          List.sorted_insertionSort stringGe _
        have hnodup : ((collectPatches ms).insertionSort stringGe).Nodup :=
          ((List.perm_insertionSort stringGe _).nodup_iff).mpr (nodup_collectPatches ms)
        refine (hsorted.and hnodup).imp ?_
        rintro a b ⟨hge, hne⟩
        rcases strLtB_not_lt a.data b.data hge with heq | hlt
        · exact absurd (stringDataEq heq) hne
        · exact hlt
      · intro p
        rw [List.mem_insertionSort]
        exact mem_collectPatches ms p
      · rw [get_available_patches, if_neg hms]
  obtain ⟨ps, hps_pair, hps_mem, hps_eq⟩ := hchar
  have hout_pair : (get_available_patches ms).Pairwise
      (fun a b => strLtB b.data a.data = true) := by
    rw [hps_eq]
    exact List.Pairwise.sublist (List.take_sublist _ _) hps_pair
  have horigin : ∀ p ∈ get_available_patches ms, ∃ m ∈ ms, patchOf m = some p := by
    intro p hp
    rw [hps_eq] at hp
    exact (hps_mem p).mp ((List.take_sublist _ _).subset hp)
  refine ⟨⟨ps, hps_pair, hps_mem, hps_eq⟩, ?_, ?_, hout_pair, horigin, ?_, ?_, by decide⟩
  · intro p hpresent hnot q hq
    have hp_ps : p ∈ ps := (hps_mem p).mpr hpresent
    have hsplit : ps = ps.take 5 ++ ps.drop 5 := (List.take_append_drop 5 ps).symm
    rw [hps_eq] at hnot hq
    have hp_drop : p ∈ ps.drop 5 := by
      rw [hsplit] at hp_ps
      rcases List.mem_append.mp hp_ps with h | h
      · exact absurd h hnot
      · exact h
    have hpair2 := hps_pair
    rw [hsplit] at hpair2
    exact (List.pairwise_append.mp hpair2).2.2 q hq p hp_drop
  · rw [hps_eq]
    exact List.length_take_le 5 _
  · intro p hp
    obtain ⟨m, hm, hpm⟩ := horigin p hp
    unfold patchOf at hpm
    cases hsp : splitDot m.gameVersion.data with
    | nil =>
      rw [hsp] at hpm
      exact absurd hpm (by simp)
    | cons p0 rest =>
      cases rest with
      | nil =>
        rw [hsp] at hpm
        exact absurd hpm (by simp)
      | cons p1 rest2 =>
        rw [hsp] at hpm
        simp only [Option.some.injEq] at hpm
        refine ⟨p0, p1, ?_, ?_, ?_⟩
        · exact splitDot_no_dot _ p0 (by rw [hsp]; exact List.mem_cons_self _ _)
        · exact splitDot_no_dot _ p1
            (by rw [hsp]; exact List.mem_cons_of_mem _ (List.mem_cons_self _ _))
        · rw [← hpm]
  · intro h
    rw [get_available_patches, if_pos h]

theorem C7_available_patches_witness :
    ∃ m ∈ [ahriWinMatch, ahriLossMatch], patchOf m = some "14.30" :=
  (C7_available_patches [ahriWinMatch, ahriLossMatch]).2.2.2.2.1 "14.30" (by decide)

/-- C8: availableModes returns one entry per distinct present queueId
(absent queue ids are ignored), ascending by numeric id, each entry being
the id rendered as a string paired with the display name of the static
lookup table; the table covers ids 420, 440, 400, 430, 450, 1700 and
1900, any other id maps to the fallback label embedding the id; and
empty input yields the empty list. -/
theorem C8_available_modes (ms : List Match) :
    (∃ qs : List ℤ, qs.Pairwise (· < ·) ∧
        (∀ q : ℤ, q ∈ qs ↔ ∃ m ∈ ms, m.queueId = some q) ∧
        get_available_modes ms =
          qs.map (fun q => { id := toString q, name := get_queue_name q })) ∧
    (get_queue_name 420 = "ランクソロ/デュオ" ∧ get_queue_name 440 = "ランクフレックス" ∧
      get_queue_name 400 = "ノーマル（ドラフト）" ∧ get_queue_name 430 = "ノーマル（ブラインド）" ∧
      get_queue_name 450 = "ARAM" ∧ get_queue_name 1700 = "Arena" ∧
      get_queue_name 1900 = "URF") ∧
    (∀ q : ℤ, q ∉ ([420, 440, 400, 430, 450, 1700, 1900] : List ℤ) →
        get_queue_name q = "その他 (" ++ toString q ++ ")") ∧
    (ms = [] → get_available_modes ms = []) := by
  refine ⟨?_, by decide, ?_, ?_⟩
  · by_cases hms : ms = []
    · refine ⟨[], List.Pairwise.nil, ?_, ?_⟩
      · intro q
        simp [hms]
      · rw [get_available_modes, if_pos hms]
        rfl
    · refine ⟨(collectQueueIds ms).insertionSort (· ≤ ·), ?_, ?_, ?_⟩
      · have hsorted := List.sorted_insertionSort (fun a b : ℤ => a ≤ b) (collectQueueIds ms)
        have hnodup : ((collectQueueIds ms).insertionSort (· ≤ ·)).Nodup :=
          ((List.perm_insertionSort _ _).nodup_iff).mpr (nodup_collectQueueIds ms)
        refine (hsorted.and hnodup).imp ?_
        rintro a b ⟨hle, hne⟩
        exact lt_of_le_of_ne hle hne
      · intro q
        rw [List.mem_insertionSort]
        exact mem_collectQueueIds ms q
      · rw [get_available_modes, if_neg hms]
  · intro q hq
    simp only [List.mem_cons, List.not_mem_nil, or_false] at hq
    push_neg at hq
    obtain ⟨h1, h2, h3, h4, h5, h6, h7⟩ := hq
    rw [get_queue_name, if_neg h1, if_neg h2, if_neg h3, if_neg h4, if_neg h5, if_neg h6,
      if_neg h7]
  · intro h
    rw [get_available_modes, if_pos h]

theorem C8_available_modes_witness :
    get_queue_name 999 = "その他 (" ++ toString (999 : ℤ) ++ ")" :=
  (C8_available_modes []).2.2.1 999 (by decide)

end LolStats

